import Mathlib

/-!
Shallow embedding of the concurrency core of the `my-util` JavaScript
utility library: the chunker (`array.js` / `chunk`), the poll engine
(`promise.js` / `poll`), the interval limiter (`promise.js` /
`intervalLimiter`), and the bounded parallel executors (`promise.js` /
`allSettled`, `throwFirstReject`).

JavaScript values relevant to these functions are modelled by `JSVal`
(finite numbers are rationals, with a separate `nan` constructor) and
numeric arguments that may be `Infinity` by `JSNum`.  Asynchronous
settlement of a task is modelled by the `Settlement` type; since chunks
are executed strictly sequentially and `Promise.allSettled` /
`Promise.all` report outcomes in input order, the executors become pure
functions of the task's settlement map.  Timer delays (`ms`, `wait`,
sleep durations) only postpone execution and never change which value a
promise settles with, so they are not threaded through the value-level
semantics; `poll` is given an explicit fuel bounding the number of
resolver iterations, since the source loop need not terminate.
-/

namespace MyUtil

/-- Model of a JavaScript value as used by this library: `undefined`,
`null`, booleans, finite numbers (as rationals), `NaN`, strings and
(one level of) arrays. -/
inductive JSVal : Type where
  | undef : JSVal
  | nullv : JSVal
  | boolean : Bool → JSVal
  | number : ℚ → JSVal
  | nan : JSVal
  | string : String → JSVal
  | arr : List JSVal → JSVal

/-- A JavaScript number argument that may be `Infinity` or `-Infinity`
(finite values as rationals). -/
inductive JSNum : Type where
  | fin : ℚ → JSNum
  | inf : JSNum
  | negInf : JSNum

/-- The validation guard of `chunk`:
`chunkSize !== Infinity && (chunkSize <= 0 || !Number.isInteger(chunkSize))`.
A rational is a JavaScript integer exactly when its denominator is 1;
`Number.isInteger(-Infinity)` is false and `-Infinity <= 0` holds. -/
def chunkSizeInvalid : JSNum → Bool
  | .inf => false
  | .negInf => true
  | .fin q => decide (q ≤ 0) || decide (q.den ≠ 1)

/-- The loop condition `current.length >= chunkSize` of `chunk`:
never reached for `Infinity`, always for `-Infinity`. -/
def atChunkLimit : JSNum → ℕ → Bool
  | .fin q, m => decide (q ≤ (m : ℚ))
  | .inf, _ => false
  | .negInf, _ => true

/-- The `for (const element of iterable)` loop of `chunk`: `current` is
the chunk currently being filled; once it reaches `chunkSize` elements it
is emitted and a fresh chunk starts; a nonempty leftover chunk is emitted
at the end. -/
def chunkLoop (size : JSNum) (current : List α) : List α → List (List α)
  | [] => if current.isEmpty then [] else [current]
  | x :: rest =>
    let cur := current ++ [x]
    if atChunkLimit size cur.length then cur :: chunkLoop size [] rest
    else chunkLoop size cur rest

/-- `chunk(iterable, chunkSize = Infinity)` from `array.js`: validates
`chunkSize` (throwing `"chunkSize must be a positive integer or Infinity"`
otherwise) and partitions the input into contiguous chunks of at most
`chunkSize` elements. -/
def chunk (array : List α) (size : JSNum := JSNum.inf) :
    Except String (List (List α)) :=
  if chunkSizeInvalid size then
    Except.error "chunkSize must be a positive integer or Infinity"
  else
    Except.ok (chunkLoop size [] array)

/-- Concatenating the chunks produced by `chunkLoop` restores the pending
chunk followed by the remaining input, for any size. -/
theorem chunkLoop_flatten (size : JSNum) :
    ∀ (l current : List α), (chunkLoop size current l).flatten = current ++ l := by
  intro l
  induction l with
  | nil =>
    intro current
    by_cases h : current.isEmpty
    · simp [chunkLoop, h, List.isEmpty_iff.mp h]
    · simp [chunkLoop, h]
  | cons x rest ih =>
    intro current
    by_cases h : atChunkLimit size (current.length + 1) = true
    · simp [chunkLoop, h, ih]
    · simp [chunkLoop, h, ih]

/-- Size invariant of `chunkLoop` for a positive integer chunk size `n`:
starting from a pending chunk shorter than `n`, every emitted chunk is
nonempty and no longer than `n`, and every chunk other than the last has
exactly `n` elements. -/
theorem chunkLoop_sizes (n : ℕ) (hn : 0 < n) :
    ∀ (l current : List α), current.length < n →
      (∀ c ∈ chunkLoop (JSNum.fin (n : ℚ)) current l, c ≠ [] ∧ c.length ≤ n) ∧
      (∀ c ∈ (chunkLoop (JSNum.fin (n : ℚ)) current l).dropLast, c.length = n) := by
  intro l
  induction l with
  | nil =>
    intro current hcur
    by_cases h : current.isEmpty
    · simp [chunkLoop, h]
    · refine ⟨?_, ?_⟩
      · intro c hc
        simp [chunkLoop, h] at hc
        subst hc
        exact ⟨fun hnil => h (by simp [hnil]), le_of_lt hcur⟩
      · intro c hc
        simp [chunkLoop, h] at hc
  | cons x rest ih =>
    intro current hcur
    simp only [chunkLoop]
    by_cases h : atChunkLimit (JSNum.fin (n : ℚ)) ((current ++ [x]).length) = true
    · rw [if_pos h]
      have hle : n ≤ (current ++ [x]).length := by
        have h' := h
        simp only [atChunkLimit, decide_eq_true_eq] at h'
        exact_mod_cast h'
      have hlen : (current ++ [x]).length = n := by
        simp only [List.length_append, List.length_singleton] at hle ⊢
        omega
      have ihr := ih [] (by simpa using hn)
      refine ⟨?_, ?_⟩
      · intro c hc
        rcases List.mem_cons.mp hc with hc | hc
        · subst hc
          exact ⟨by simp, le_of_eq hlen⟩
        · exact ihr.1 c hc
      · intro c hc
        rcases eq_or_ne (chunkLoop (JSNum.fin (n : ℚ)) [] rest) [] with hr | hr
        · rw [hr] at hc
          simp at hc
        · rw [List.dropLast_cons_of_ne_nil hr] at hc
          rcases List.mem_cons.mp hc with hc | hc
          · subst hc; exact hlen
          · exact ihr.2 c hc
    · rw [if_neg h]
      have hlt : (current ++ [x]).length < n := by
        have h' := h
        simp only [atChunkLimit, decide_eq_true_eq] at h'
        have hnle : ¬ n ≤ (current ++ [x]).length := by
          intro hle
          exact h' (by exact_mod_cast hle)
        omega
      exact ih (current ++ [x]) hlt

/-- With size `Infinity` the emission condition never fires, so the loop
returns the pending chunk extended with all remaining input as a single
chunk (or nothing when both are empty). -/
theorem chunkLoop_inf :
    ∀ (l current : List α),
      chunkLoop JSNum.inf current l =
        if (current ++ l).isEmpty then [] else [current ++ l] := by
  intro l
  induction l with
  | nil =>
    intro current
    rw [List.append_nil]
    simp [chunkLoop]
  | cons x rest ih =>
    intro current
    simp only [chunkLoop, atChunkLimit, if_false, Bool.false_eq_true]
    rw [ih (current ++ [x])]
    simp

/-- C2: `chunk` accepts a size that is a positive integer or `Infinity`
(`Infinity` yielding a single chunk with all items, without error, and no
chunk at all for an empty input), and fails with the invalid-argument
error for every size that is `0`, negative, a non-integer rational, or
`-Infinity`. -/
theorem chunk_size_validation (l : List ι) :
    (∀ n : ℕ, 0 < n → ∃ cs, chunk l (JSNum.fin (n : ℚ)) = Except.ok cs) ∧
    (l ≠ [] → chunk l JSNum.inf = Except.ok [l]) ∧
    (l = [] → chunk l JSNum.inf = Except.ok []) ∧
    (∀ q : ℚ, q ≤ 0 ∨ q.den ≠ 1 →
      chunk l (JSNum.fin q) =
        Except.error "chunkSize must be a positive integer or Infinity") ∧
    chunk l JSNum.negInf =
      Except.error "chunkSize must be a positive integer or Infinity" := by
  refine ⟨?_, ?_, ?_, ?_, ?_⟩
  · intro n hn
    have hvalid : chunkSizeInvalid (JSNum.fin (n : ℚ)) = false := by
      simp only [chunkSizeInvalid, Bool.or_eq_false_iff, decide_eq_false_iff_not, not_le,
        ne_eq, Decidable.not_not]
      exact ⟨by exact_mod_cast hn, by simp⟩
    exact ⟨chunkLoop (JSNum.fin (n : ℚ)) [] l, by simp [chunk, hvalid]⟩
  · intro hl
    simp [chunk, chunkSizeInvalid, chunkLoop_inf, hl]
  · intro hl
    simp [chunk, chunkSizeInvalid, chunkLoop_inf, hl]
  · intro q hq
    have hinvalid : chunkSizeInvalid (JSNum.fin q) = true := by
      rcases hq with hq | hq
      · simp [chunkSizeInvalid, hq]
      · simp [chunkSizeInvalid, hq]
    simp [chunk, hinvalid]
  · simp [chunk, chunkSizeInvalid]

/-- Witness for C2 at concrete inputs. -/
theorem chunk_size_validation_witness :
    (∃ cs, chunk [1, 2, 3] (JSNum.fin ((2 : ℕ) : ℚ)) = Except.ok cs) ∧
    chunk [1, 2, 3] JSNum.inf = Except.ok [[1, 2, 3]] ∧
    chunk ([] : List ℕ) JSNum.inf = Except.ok [] ∧
    chunk [1, 2, 3] (JSNum.fin 0) =
      Except.error "chunkSize must be a positive integer or Infinity" :=
  ⟨(chunk_size_validation [1, 2, 3]).1 2 (by norm_num),
   (chunk_size_validation [1, 2, 3]).2.1 (by simp),
   (chunk_size_validation ([] : List ℕ)).2.2.1 rfl,
   (chunk_size_validation [1, 2, 3]).2.2.2.1 0 (Or.inl le_rfl)⟩

/-- C3: for a valid positive integer size, `chunk` partitions the input:
the chunks concatenate back to the input in order, every chunk except
possibly the last has exactly `size` elements, every chunk (including the
last) has between 1 and `size` elements (so no chunk is empty), and an
empty input yields no chunks. -/
theorem chunk_partition (l : List ι) (n : ℕ) (hn : 0 < n) :
    ∃ cs, chunk l (JSNum.fin (n : ℚ)) = Except.ok cs ∧
      cs.flatten = l ∧
      (∀ c ∈ cs.dropLast, c.length = n) ∧
      (∀ c ∈ cs, 1 ≤ c.length ∧ c.length ≤ n) ∧
      (l = [] → cs = []) := by
  have hvalid : chunkSizeInvalid (JSNum.fin (n : ℚ)) = false := by
    simp only [chunkSizeInvalid, Bool.or_eq_false_iff, decide_eq_false_iff_not, not_le,
      ne_eq, Decidable.not_not]
    exact ⟨by exact_mod_cast hn, by simp⟩
  have hsizes := chunkLoop_sizes n hn l [] (by simpa using hn)
  refine ⟨chunkLoop (JSNum.fin (n : ℚ)) [] l, by simp [chunk, hvalid],
    by simpa using chunkLoop_flatten (JSNum.fin (n : ℚ)) l [], hsizes.2, ?_, ?_⟩
  · intro c hc
    obtain ⟨hne, hle⟩ := hsizes.1 c hc
    exact ⟨List.length_pos.mpr hne, hle⟩
  · intro hl
    subst hl
    simp [chunkLoop]

/-- Witness for C3 at a concrete input. -/
theorem chunk_partition_witness :
    ∃ cs, chunk [1, 2, 3, 4, 5] (JSNum.fin ((2 : ℕ) : ℚ)) = Except.ok cs ∧
      cs.flatten = [1, 2, 3, 4, 5] ∧
      (∀ c ∈ cs.dropLast, c.length = 2) ∧
      (∀ c ∈ cs, 1 ≤ c.length ∧ c.length ≤ 2) ∧
      ([1, 2, 3, 4, 5] = ([] : List ℕ) → cs = []) :=
  chunk_partition [1, 2, 3, 4, 5] 2 (by norm_num)

/-- The sentinel test of `poll`: the negation of
`result !== undefined && result !== null && result !== false`.
A sentinel result means "keep polling". -/
def isSentinel : JSVal → Bool
  | .undef => true
  | .nullv => true
  | .boolean false => true
  | _ => false

/-- How an invocation of `poll` can settle: resolved with a value,
rejected with a `PollError` carrying a message, or rejected with the
task's own error. -/
inductive PollOutcome : Type where
  | resolved : JSVal → PollOutcome
  | pollError : String → PollOutcome
  | taskError : JSVal → PollOutcome

/-- The guard `typeof attempts === "number" && attemptIndex >= attempts`
of the resolver (`attempts` is `none` when left `undefined`). -/
def attemptsReached : Option ℕ → ℕ → Bool
  | some n, i => decide (n ≤ i)
  | none, _ => false

/-- The `resolver` loop of `poll` from `promise.js`, with an explicit
fuel bounding the number of resolver iterations (the source loop may run
forever). Returns `none` when the fuel runs out before the poll settles;
otherwise returns the list of attempt indices at which the callback was
invoked together with the settlement. Timer waits (`ms`, `wait`) only
delay iterations and are not modelled.

`pollSettle` is the body of one resolver iteration after the attempt
check: `try { const result = await callback(attemptIndex); ... } catch`,
with `recur` standing for the re-scheduled resolver. -/
def pollSettle (i : ℕ) (r : Except JSVal JSVal)
    (recur : Option (List ℕ × PollOutcome)) : Option (List ℕ × PollOutcome) :=
  match r with
  | Except.error e => some ([i], PollOutcome.taskError e)
  | Except.ok v =>
    if isSentinel v then recur.map (fun p => (i :: p.1, p.2))
    else some ([i], PollOutcome.resolved v)

def pollAux (attempts : Option ℕ) (callback : ℕ → Except JSVal JSVal) :
    ℕ → ℕ → Option (List ℕ × PollOutcome)
  | _, 0 => none
  | i, fuel + 1 =>
    if attemptsReached attempts i then
      some ([], PollOutcome.pollError "max attempts reached")
    else
      pollSettle i (callback i) (pollAux attempts callback (i + 1) fuel)

/-- `poll({ ms, wait, attempts }, callback)`: run the resolver starting
at attempt index 0. -/
def pollRun (attempts : Option ℕ) (callback : ℕ → Except JSVal JSVal) (fuel : ℕ) :
    Option (List ℕ × PollOutcome) :=
  pollAux attempts callback 0 fuel

/-- A poll that settles without invoking the callback can only have been
rejected through the attempt limit, i.e. with a `PollError`. -/
theorem pollAux_nil_trace (attempts : Option ℕ) (cb : ℕ → Except JSVal JSVal)
    (i fuel : ℕ) (o : PollOutcome) (h : pollAux attempts cb i fuel = some ([], o)) :
    o = PollOutcome.pollError "max attempts reached" := by
  cases fuel with
  | zero => simp [pollAux] at h
  | succ fuel =>
    by_cases hatt : attemptsReached attempts i = true
    · simp [pollAux, hatt] at h
      exact h.symm
    · simp only [pollAux, hatt, Bool.false_eq_true, if_false] at h
      cases hcb : cb i with
      | error e =>
        rw [hcb] at h
        simp [pollSettle] at h
      | ok v =>
        rw [hcb] at h
        by_cases hs : isSentinel v = true
        · simp only [pollSettle] at h
          rw [if_pos hs] at h
          cases hp : pollAux attempts cb (i + 1) fuel with
          | none => rw [hp] at h; simp at h
          | some p => rw [hp] at h; simp at h
        · simp only [pollSettle] at h
          rw [if_neg hs] at h
          simp at h

/-- C4: `poll` treats a first-attempt result as terminal — resolving
immediately with that exact value after a single invocation, with no
retry — exactly when the result is not one of `undefined`, `null`,
`false`. -/
theorem poll_terminal_iff (attempts : Option ℕ) (cb : ℕ → Except JSVal JSVal)
    (v : JSVal) (fuel : ℕ) (hcb : cb 0 = Except.ok v)
    (hatt : attemptsReached attempts 0 = false) :
    pollRun attempts cb (fuel + 1) = some ([0], PollOutcome.resolved v) ↔
      isSentinel v = false := by
  unfold pollRun
  constructor
  · intro h
    by_contra hs
    have hs' : isSentinel v = true := by
      revert hs; cases isSentinel v <;> simp
    simp only [pollAux, hatt, Bool.false_eq_true, if_false, hcb, pollSettle, hs', if_true] at h
    cases hp : pollAux attempts cb 1 fuel with
    | none => rw [hp] at h; simp at h
    | some p =>
      obtain ⟨tr, o⟩ := p
      rw [hp] at h
      have h' : (0 :: tr, o) = ([0], PollOutcome.resolved v) := Option.some.inj h
      have h1 : 0 :: tr = ([0] : List ℕ) := congrArg Prod.fst h'
      have h2 : o = PollOutcome.resolved v := congrArg Prod.snd h'
      have htr : tr = [] := by
        injection h1 with hhead htail
      subst htr
      have := pollAux_nil_trace attempts cb 1 fuel o hp
      rw [this] at h2
      cases h2
  · intro hs
    simp [pollAux, pollSettle, hatt, hcb, hs]

/-- Witness for C4: tasks returning `0`, `""`, `NaN` resolve the poll on
the first attempt with that exact value. -/
theorem poll_terminal_iff_witness :
    pollRun none (fun _ => Except.ok (JSVal.number 0)) 1 =
        some ([0], PollOutcome.resolved (JSVal.number 0)) ∧
    pollRun none (fun _ => Except.ok (JSVal.string "")) 1 =
        some ([0], PollOutcome.resolved (JSVal.string "")) ∧
    pollRun none (fun _ => Except.ok JSVal.nan) 1 =
        some ([0], PollOutcome.resolved JSVal.nan) :=
  ⟨(poll_terminal_iff none _ (JSVal.number 0) 0 rfl rfl).mpr rfl,
   (poll_terminal_iff none _ (JSVal.string "") 0 rfl rfl).mpr rfl,
   (poll_terminal_iff none _ JSVal.nan 0 rfl rfl).mpr rfl⟩

/-- Running the resolver from attempt index `i` with limit `n` and an
always-sentinel callback invokes the callback at indices `i .. n-1` and
then rejects with the `PollError`. -/
theorem pollAux_exhaust (n : ℕ) (cb : ℕ → Except JSVal JSVal)
    (h : ∀ i, ∃ v, cb i = Except.ok v ∧ isSentinel v = true) :
    ∀ fuel i, n - i < fuel →
      pollAux (some n) cb i fuel =
        some (List.range' i (n - i), PollOutcome.pollError "max attempts reached") := by
  intro fuel
  induction fuel with
  | zero => intro i hi; omega
  | succ fuel ih =>
    intro i hi
    by_cases hreached : n ≤ i
    · have hatt : attemptsReached (some n) i = true := by
        simp [attemptsReached, hreached]
      have hni : n - i = 0 := by omega
      simp [pollAux, hatt, hni]
    · obtain ⟨v, hv, hs⟩ := h i
      have hatt : attemptsReached (some n) i = false := by
        simp only [attemptsReached, decide_eq_false_iff_not]
        omega
      have hrec := ih (i + 1) (by omega)
      simp only [pollAux, hatt, Bool.false_eq_true, if_false, hv, pollSettle, hs, if_true]
      rw [hrec]
      have hsplit : n - i = (n - (i + 1)) + 1 := by omega
      rw [hsplit, List.range'_succ]
      simp

/-- C5: with `maxAttempts = n` and a task that always returns a sentinel,
`poll` rejects with a `PollError` whose message is
`"max attempts reached"` after invoking the task exactly at attempt
indices `0 .. n-1` (the attempt that would exceed the limit never runs). -/
theorem poll_exhaustion (n : ℕ) (cb : ℕ → Except JSVal JSVal)
    (h : ∀ i, ∃ v, cb i = Except.ok v ∧ isSentinel v = true)
    (fuel : ℕ) (hfuel : n < fuel) :
    pollRun (some n) cb fuel =
      some (List.range n, PollOutcome.pollError "max attempts reached") := by
  unfold pollRun
  have := pollAux_exhaust n cb h fuel 0 (by omega)
  simpa [List.range_eq_range'] using this

/-- Witness for C5: `maxAttempts = 3` with an always-`undefined` task
rejects after exactly the attempt indices `[0, 1, 2]`. -/
theorem poll_exhaustion_witness :
    pollRun (some 3) (fun _ => Except.ok JSVal.undef) 4 =
      some (List.range 3, PollOutcome.pollError "max attempts reached") :=
  poll_exhaustion 3 _ (fun _ => ⟨JSVal.undef, rfl, rfl⟩) 4 (by norm_num)

/-- C10: with `attempts = 0` the limit check precedes the first
invocation, so `poll` rejects with the `PollError` without ever invoking
the task (empty invocation trace), for every task. -/
theorem poll_zero_attempts (cb : ℕ → Except JSVal JSVal) (fuel : ℕ) :
    pollRun (some 0) cb (fuel + 1) =
      some ([], PollOutcome.pollError "max attempts reached") := by
  simp [pollRun, pollAux, attemptsReached]

/-- `sleep(ms)` from `promise.js` suspends for `ms` milliseconds and
returns immediately when `ms` is negative; its effective suspension
duration is therefore `max ms 0`. -/
def sleepDuration (ms : ℚ) : ℚ :=
  if ms < 0 then 0 else ms

/-- The closure state of one `intervalLimiter` instance:
`let count = 0` and `let startTimestamp = Date.now()`. -/
structure LimiterState where
  count : ℚ
  startTimestamp : ℚ

/-- The default `interval = 1000 * 60` of `intervalLimiter`. -/
def intervalLimiterDefault : ℚ := 1000 * 60

/-- The state at creation time of an `intervalLimiter` instance. -/
def intervalLimiterInit (now : ℚ) : LimiterState :=
  { count := 0, startTimestamp := now }

/-- One call of the function returned by `intervalLimiter({limit, interval})`
with argument `added`, at wall-clock time `now`.  Returns the state after
the call together with `none` when the call returned without suspending,
or `some d` when it suspended for duration `d` via `sleep`; the resume
time `now + d` becomes the new `startTimestamp` and `count` is reset to 0. -/
def intervalLimiterCall (limit interval : ℚ) (s : LimiterState) (added now : ℚ) :
    LimiterState × Option ℚ :=
  let count := s.count + added
  if limit ≤ count then
    let d := sleepDuration (interval - (now - s.startTimestamp))
    ({ count := 0, startTimestamp := now + d }, some d)
  else
    ({ count := count, startTimestamp := s.startTimestamp }, none)

/-- C6: an `intervalLimiter` instance starts with `count = 0` and window
start at creation time, and its interval defaults to 60000 ms; each call
adds `addedCount` to `count`; while the new count stays strictly below
`limit` the call returns without suspension and leaves the window start
unchanged; once the new count reaches or exceeds `limit` the call
suspends for `intervalMs - (now - windowStart)` (clamped at 0, so a
negative wait resolves immediately) and then resets `count` to 0 and the
window start to the resume time. -/
theorem intervalLimiter_spec :
    intervalLimiterDefault = 60000 ∧
    (∀ now : ℚ, intervalLimiterInit now = { count := 0, startTimestamp := now }) ∧
    (∀ limit interval added now : ℚ, ∀ s : LimiterState, s.count + added < limit →
      intervalLimiterCall limit interval s added now =
        ({ count := s.count + added, startTimestamp := s.startTimestamp }, none)) ∧
    (∀ limit interval added now : ℚ, ∀ s : LimiterState, limit ≤ s.count + added →
      intervalLimiterCall limit interval s added now =
        ({ count := 0,
           startTimestamp := now + sleepDuration (interval - (now - s.startTimestamp)) },
         some (sleepDuration (interval - (now - s.startTimestamp))))) ∧
    (∀ ms : ℚ, ms < 0 → sleepDuration ms = 0) ∧
    (∀ ms : ℚ, 0 ≤ ms → sleepDuration ms = ms) := by
  refine ⟨by norm_num [intervalLimiterDefault], fun _ => rfl, ?_, ?_, ?_, ?_⟩
  · intro limit interval added now s h
    simp [intervalLimiterCall, not_le.mpr h]
  · intro limit interval added now s h
    simp [intervalLimiterCall, h]
  · intro ms h
    simp [sleepDuration, h]
  · intro ms h
    simp [sleepDuration, not_lt.mpr h]

/-- Witness for C6 at concrete values: limit 3, interval 100, a call
adding 1 below the limit, and a call adding 2 that reaches it 40 ms into
the window. -/
theorem intervalLimiter_spec_witness :
    intervalLimiterCall 3 100 { count := 0, startTimestamp := 0 } 1 10 =
      ({ count := 1, startTimestamp := 0 }, none) ∧
    intervalLimiterCall 3 100 { count := 1, startTimestamp := 0 } 2 40 =
      ({ count := 0, startTimestamp := 100 }, some 60) := by
  constructor
  · have h := intervalLimiter_spec.2.2.1 3 100 1 10 { count := 0, startTimestamp := 0 }
      (by norm_num)
    simpa using h
  · have h := intervalLimiter_spec.2.2.2.1 3 100 2 40 { count := 1, startTimestamp := 0 }
      (by norm_num)
    rw [h]
    norm_num [sleepDuration]

/-- C9: whenever a call to an `intervalLimiter` instance suspends, the
count after the call is exactly 0 no matter how far `addedCount` pushed
it past `limit` (overshoot is discarded); a call suspends exactly when
the incremented count reaches or exceeds `limit`; and a call that does
not suspend leaves the window start untouched and just accumulates, so
the window is reset only by a call that brings the count to or above
`limit` (state never changes between calls in this model — it is a pure
value owned by the closure). -/
theorem intervalLimiter_reset_only_on_threshold :
    (∀ limit interval added now d : ℚ, ∀ s s' : LimiterState,
      intervalLimiterCall limit interval s added now = (s', some d) → s'.count = 0) ∧
    (∀ limit interval added now : ℚ, ∀ s : LimiterState,
      (intervalLimiterCall limit interval s added now).2 ≠ none ↔
        limit ≤ s.count + added) ∧
    (∀ limit interval added now : ℚ, ∀ s s' : LimiterState,
      intervalLimiterCall limit interval s added now = (s', none) →
        s'.startTimestamp = s.startTimestamp ∧ s'.count = s.count + added) ∧
    (∀ limit interval added now : ℚ, ∀ s : LimiterState,
      (intervalLimiterCall limit interval s added now).1.startTimestamp ≠
          s.startTimestamp →
        limit ≤ s.count + added) := by
  refine ⟨?_, ?_, ?_, ?_⟩
  · intro limit interval added now d s s' h
    by_cases hth : limit ≤ s.count + added
    · simp only [intervalLimiterCall, hth, if_true] at h
      have := congrArg Prod.fst h
      simp at this
      rw [← this]
    · simp only [intervalLimiterCall, hth, if_false] at h
      have := congrArg Prod.snd h
      simp at this
  · intro limit interval added now s
    by_cases hth : limit ≤ s.count + added
    · simp [intervalLimiterCall, hth]
    · simp [intervalLimiterCall, hth]
  · intro limit interval added now s s' h
    by_cases hth : limit ≤ s.count + added
    · simp only [intervalLimiterCall, hth, if_true] at h
      have := congrArg Prod.snd h
      simp at this
    · simp only [intervalLimiterCall, hth, if_false] at h
      have := congrArg Prod.fst h
      simp at this
      rw [← this]
      exact ⟨rfl, rfl⟩
  · intro limit interval added now s h
    by_contra hth
    have hlt : s.count + added < limit := not_le.mp hth
    simp [intervalLimiterCall, not_le.mpr hlt] at h

/-- Witness for C9: a call adding 5 against limit 3 (overshoot 2)
suspends and still resets the count to exactly 0. -/
theorem intervalLimiter_reset_only_on_threshold_witness :
    (intervalLimiterCall 3 100 { count := 0, startTimestamp := 0 } 5 40).1.count = 0 ∧
    (intervalLimiterCall 3 100 { count := 0, startTimestamp := 0 } 5 40).2 ≠ none := by
  constructor
  · have heq : intervalLimiterCall 3 100 { count := 0, startTimestamp := 0 } 5 40 =
        ({ count := 0, startTimestamp := 100 }, some 60) := by
      norm_num [intervalLimiterCall, sleepDuration]
    have h0 := intervalLimiter_reset_only_on_threshold.1 3 100 5 40 60
      { count := 0, startTimestamp := 0 } { count := 0, startTimestamp := 100 } heq
    calc (intervalLimiterCall 3 100 { count := 0, startTimestamp := 0 } 5 40).1.count
        = ({ count := 0, startTimestamp := 100 } : LimiterState).count := by rw [heq]
      _ = 0 := h0
  · exact (intervalLimiter_reset_only_on_threshold.2.1 3 100 5 40
      { count := 0, startTimestamp := 0 }).mpr (by norm_num)

/-- The settlement outcome of one task, as reported by
`Promise.allSettled`: `{status: "fulfilled", value}` or
`{status: "rejected", reason}`. -/
inductive Settlement : Type where
  | fulfilled : JSVal → Settlement
  | rejected : JSVal → Settlement

/-- The `value` property of a settled result object (`undefined` on a
rejected result, which has no `value`). -/
def settledValue : Settlement → JSVal
  | Settlement.fulfilled v => v
  | Settlement.rejected _ => JSVal.undef

/-- The fulfilled value of a settlement, if any. -/
def fulfilledValue : Settlement → Option JSVal
  | Settlement.fulfilled v => some v
  | Settlement.rejected _ => none

/-- The rejection reason of a settlement, if any. -/
def rejectedReason : Settlement → Option JSVal
  | Settlement.fulfilled _ => none
  | Settlement.rejected r => some r

/-- JavaScript `Array.prototype.flat()` at depth 1 over modelled values:
array elements are spread one level, all other elements are kept. -/
def jsFlat (l : List JSVal) : List JSVal :=
  (l.map (fun v =>
    match v with
    | JSVal.arr es => es
    | v => [v])).flatten

/-- Observable scheduling events of one `allSettled` run: a task being
launched (`elements.map(callback)`), a task having settled (the
resolution of `Promise.allSettled`), and an invocation of the `limiter`
callback with the size of the chunk just processed. -/
inductive ExecEvent (ι : Type) : Type where
  | taskStart : ι → ExecEvent ι
  | taskSettle : ι → ExecEvent ι
  | limiterCall : ℕ → ExecEvent ι

/-- Whether an event is a limiter invocation. -/
def isLimiterEvent : ExecEvent ι → Bool
  | ExecEvent.limiterCall _ => true
  | _ => false

/-- The mutable locals of `allSettled` (`results`, `values`, `returned`,
`errors`), instrumented with the list of scheduling events emitted so
far. -/
structure AggState (ι : Type) where
  results : List Settlement
  values : List JSVal
  returned : List JSVal
  errors : List JSVal
  trace : List (ExecEvent ι)

/-- The body of `for (const result of _results)` in `allSettled`:
destructures `{value, status, reason}` and pushes into the accumulators
(`value` is `undefined` when the task rejected). -/
def settleAccum (s : AggState ι) (r : Settlement) : AggState ι :=
  match r with
  | Settlement.fulfilled v =>
    { s with
      results := s.results ++ [r]
      values := s.values ++ [v]
      returned := s.returned ++ [v] }
  | Settlement.rejected reason =>
    { s with
      results := s.results ++ [r]
      values := s.values ++ [JSVal.undef]
      errors := s.errors ++ [reason] }

/-- One iteration of `for (const elements of chunked)` in `allSettled`:
launch all tasks of the chunk, await `Promise.allSettled` (outcomes in
input order), push each outcome into the accumulators, then invoke and
await the limiter (when one was supplied) with the chunk's size. -/
def allSettledChunkStep (hasLimiter : Bool) (callback : ι → Settlement)
    (s : AggState ι) (elements : List ι) : AggState ι :=
  let rs := elements.map callback
  let s3 := rs.foldl settleAccum
    { s with trace := s.trace ++ elements.map ExecEvent.taskStart
        ++ elements.map ExecEvent.taskSettle }
  if hasLimiter then
    { s3 with trace := s3.trace ++ [ExecEvent.limiterCall elements.length] }
  else s3

/-- The whole chunk loop of `allSettled`. -/
def allSettledGo (hasLimiter : Bool) (callback : ι → Settlement)
    (chunked : List (List ι)) (s : AggState ι) : AggState ι :=
  chunked.foldl (allSettledChunkStep hasLimiter callback) s

/-- The initial accumulator state of `allSettled`. -/
def emptyAgg : AggState ι :=
  { results := [], values := [], returned := [], errors := [], trace := [] }

/-- `allSettled({array, limit, limiter, flatten}, callback)` from
`promise.js`: chunk the input with `limit` (the chunker may throw on an
invalid limit), process the chunks strictly sequentially, and flatten
`values`/`returned` at the end when requested.  The presence of the
`limiter` callback is modelled by `hasLimiter` (its return value is
awaited and discarded, so only its invocations are observable, via the
trace). -/
def allSettled (array : List ι) (limit : JSNum) (hasLimiter flatten : Bool)
    (callback : ι → Settlement) : Except String (AggState ι) :=
  match chunk array limit with
  | Except.error e => Except.error e
  | Except.ok chunked =>
    let s := allSettledGo hasLimiter callback chunked emptyAgg
    if flatten then
      Except.ok { s with values := jsFlat s.values, returned := jsFlat s.returned }
    else Except.ok s

/-- Folding the settlement accumulator over a list of outcomes appends,
in order: the raw outcomes to `results`, each outcome's `value` (or
`undefined`) to `values`, the fulfilled values to `returned`, the
rejection reasons to `errors`; the trace is untouched. -/
theorem settleAccum_foldl :
    ∀ (rs : List Settlement) (s : AggState ι),
      (rs.foldl settleAccum s).results = s.results ++ rs ∧
      (rs.foldl settleAccum s).values = s.values ++ rs.map settledValue ∧
      (rs.foldl settleAccum s).returned = s.returned ++ rs.filterMap fulfilledValue ∧
      (rs.foldl settleAccum s).errors = s.errors ++ rs.filterMap rejectedReason ∧
      (rs.foldl settleAccum s).trace = s.trace := by
  intro rs
  induction rs with
  | nil => intro s; simp
  | cons r rest ih =>
    intro s
    obtain ⟨h1, h2, h3, h4, h5⟩ := ih (settleAccum s r)
    cases r with
    | fulfilled v =>
      simp only [List.foldl_cons, h1, h2, h3, h4, h5]
      simp [settleAccum, settledValue, fulfilledValue, rejectedReason]
    | rejected reason =>
      simp only [List.foldl_cons, h1, h2, h3, h4, h5]
      simp [settleAccum, settledValue, fulfilledValue, rejectedReason]

/-- The per-chunk block of scheduling events: all task launches, then all
task settlements, then the limiter invocation with the chunk's size (when
a limiter is present). -/
def chunkEvents (hasLimiter : Bool) (c : List ι) : List (ExecEvent ι) :=
  c.map ExecEvent.taskStart ++ c.map ExecEvent.taskSettle ++
    (if hasLimiter then [ExecEvent.limiterCall c.length] else [])

/-- Effect of one chunk iteration of `allSettled` on all accumulators. -/
theorem allSettledChunkStep_spec (hasLimiter : Bool) (callback : ι → Settlement)
    (s : AggState ι) (c : List ι) :
    (allSettledChunkStep hasLimiter callback s c).results
        = s.results ++ c.map callback ∧
    (allSettledChunkStep hasLimiter callback s c).values
        = s.values ++ c.map (fun i => settledValue (callback i)) ∧
    (allSettledChunkStep hasLimiter callback s c).returned
        = s.returned ++ c.filterMap (fun i => fulfilledValue (callback i)) ∧
    (allSettledChunkStep hasLimiter callback s c).errors
        = s.errors ++ c.filterMap (fun i => rejectedReason (callback i)) ∧
    (allSettledChunkStep hasLimiter callback s c).trace
        = s.trace ++ chunkEvents hasLimiter c := by
  obtain ⟨h1, h2, h3, h4, h5⟩ := settleAccum_foldl (c.map callback)
    { s with trace := s.trace ++ c.map ExecEvent.taskStart ++ c.map ExecEvent.taskSettle }
  cases hasLimiter with
  | false =>
    refine ⟨?_, ?_, ?_, ?_, ?_⟩ <;>
      simp only [allSettledChunkStep, if_false, Bool.false_eq_true, h1, h2, h3, h4, h5] <;>
      simp [chunkEvents, List.append_assoc, List.filterMap_map, Function.comp_def]
  | true =>
    refine ⟨?_, ?_, ?_, ?_, ?_⟩ <;>
      simp only [allSettledChunkStep, if_true, h1, h2, h3, h4, h5] <;>
      simp [chunkEvents, List.append_assoc, List.filterMap_map, Function.comp_def]

/-- Effect of the whole chunk loop of `allSettled` on all accumulators:
per input order over the concatenation of the chunks, with one event
block per chunk. -/
theorem allSettledGo_spec (hasLimiter : Bool) (callback : ι → Settlement) :
    ∀ (chunked : List (List ι)) (s : AggState ι),
      (allSettledGo hasLimiter callback chunked s).results
          = s.results ++ chunked.flatten.map callback ∧
      (allSettledGo hasLimiter callback chunked s).values
          = s.values ++ chunked.flatten.map (fun i => settledValue (callback i)) ∧
      (allSettledGo hasLimiter callback chunked s).returned
          = s.returned ++ chunked.flatten.filterMap (fun i => fulfilledValue (callback i)) ∧
      (allSettledGo hasLimiter callback chunked s).errors
          = s.errors ++ chunked.flatten.filterMap (fun i => rejectedReason (callback i)) ∧
      (allSettledGo hasLimiter callback chunked s).trace
          = s.trace ++ (chunked.map (chunkEvents hasLimiter)).flatten := by
  intro chunked
  induction chunked with
  | nil => intro s; simp [allSettledGo]
  | cons c rest ih =>
    intro s
    obtain ⟨g1, g2, g3, g4, g5⟩ := ih (allSettledChunkStep hasLimiter callback s c)
    obtain ⟨h1, h2, h3, h4, h5⟩ := allSettledChunkStep_spec hasLimiter callback s c
    have hgo : allSettledGo hasLimiter callback (c :: rest) s
        = allSettledGo hasLimiter callback rest (allSettledChunkStep hasLimiter callback s c) := by
      simp [allSettledGo]
    rw [hgo]
    refine ⟨?_, ?_, ?_, ?_, ?_⟩
    · rw [g1, h1]; simp [List.append_assoc]
    · rw [g2, h2]; simp [List.append_assoc]
    · rw [g3, h3]; simp [List.append_assoc]
    · rw [g4, h4]; simp [List.append_assoc]
    · rw [g5, h5]; simp [List.append_assoc]

/-- C1: for every input array and task (and any valid chunk limit,
limiter present or not), `allSettled` resolves with an aggregate — never
rejecting because an individual task failed — in which `results` holds
exactly one settlement per input item in input order, `values` holds each
item's fulfilled value or `undefined` if it rejected (positionally),
`returned` holds the fulfilled values in input order, `errors` holds the
rejection reasons in input order, and an empty input yields all-empty
arrays. -/
theorem allSettled_spec (array : List ι) (limit : JSNum) (hasLimiter : Bool)
    (callback : ι → Settlement) (h : chunkSizeInvalid limit = false) :
    ∃ s, allSettled array limit hasLimiter false callback = Except.ok s ∧
      s.results = array.map callback ∧
      s.values = array.map (fun i => settledValue (callback i)) ∧
      s.returned = array.filterMap (fun i => fulfilledValue (callback i)) ∧
      s.errors = array.filterMap (fun i => rejectedReason (callback i)) ∧
      (array = [] → s.results = [] ∧ s.values = [] ∧ s.returned = [] ∧ s.errors = []) := by
  have hchunk : chunk array limit = Except.ok (chunkLoop limit [] array) := by
    simp [chunk, h]
  obtain ⟨g1, g2, g3, g4, g5⟩ :=
    allSettledGo_spec hasLimiter callback (chunkLoop limit [] array) (emptyAgg (ι := ι))
  have hflat : (chunkLoop limit [] array).flatten = array := by
    simpa using chunkLoop_flatten limit array []
  rw [hflat] at g1 g2 g3 g4
  refine ⟨allSettledGo hasLimiter callback (chunkLoop limit [] array) emptyAgg, ?_,
    ?_, ?_, ?_, ?_, ?_⟩
  · simp [allSettled, hchunk]
  · simpa [emptyAgg] using g1
  · simpa [emptyAgg] using g2
  · simpa [emptyAgg] using g3
  · simpa [emptyAgg] using g4
  · intro harr
    subst harr
    constructor
    · simpa [emptyAgg] using g1
    constructor
    · simpa [emptyAgg] using g2
    constructor
    · simpa [emptyAgg] using g3
    · simpa [emptyAgg] using g4

/-- A fixed demonstration task used by the executor witnesses: item 1
rejects, all other items fulfill. -/
def demoTask : ℕ → Settlement
  | 1 => Settlement.rejected (JSVal.string "fail")
  | 0 => Settlement.fulfilled (JSVal.number 10)
  | _ => Settlement.fulfilled (JSVal.number 30)

/-- Witness for C1: three items chunked in pairs, the middle one
rejecting. -/
theorem allSettled_spec_witness :
    ∃ s, allSettled [0, 1, 2] (JSNum.fin 2) false false demoTask = Except.ok s ∧
      s.results = [Settlement.fulfilled (JSVal.number 10),
        Settlement.rejected (JSVal.string "fail"),
        Settlement.fulfilled (JSVal.number 30)] ∧
      s.values = [JSVal.number 10, JSVal.undef, JSVal.number 30] ∧
      s.returned = [JSVal.number 10, JSVal.number 30] ∧
      s.errors = [JSVal.string "fail"] := by
  obtain ⟨s, hok, h1, h2, h3, h4, _⟩ :=
    allSettled_spec [0, 1, 2] (JSNum.fin 2) false demoTask (by simp [chunkSizeInvalid])
  refine ⟨s, hok, ?_, ?_, ?_, ?_⟩
  · rw [h1]; rfl
  · rw [h2]; rfl
  · rw [h3]; rfl
  · rw [h4]; rfl

/-- The event stream of a run with a limiter contains exactly one limiter
invocation per chunk. -/
theorem countP_chunkEvents (chunks : List (List ι)) :
    ((chunks.map (chunkEvents true)).flatten).countP isLimiterEvent = chunks.length := by
  induction chunks with
  | nil => simp
  | cons c rest ih =>
    have hstart : (c.map (ExecEvent.taskStart (ι := ι))).countP isLimiterEvent = 0 := by
      rw [List.countP_eq_zero]
      intro a ha
      obtain ⟨i, _, rfl⟩ := List.mem_map.mp ha
      simp [isLimiterEvent]
    have hsettle : (c.map (ExecEvent.taskSettle (ι := ι))).countP isLimiterEvent = 0 := by
      rw [List.countP_eq_zero]
      intro a ha
      obtain ⟨i, _, rfl⟩ := List.mem_map.mp ha
      simp [isLimiterEvent]
    simp [chunkEvents, List.countP_append, hstart, hsettle, ih, List.countP_cons,
      isLimiterEvent]

/-- C7: when a limiter callback is supplied, the event stream of
`allSettled` is exactly, chunk by chunk in order: the chunk's task
launches, then the chunk's task settlements, then one limiter invocation
carrying that chunk's size — so the limiter runs exactly once per chunk,
with the chunk's size, only after every task of the chunk has settled,
and is awaited before any task of the next chunk starts; in total there
are as many limiter invocations as chunks. -/
theorem allSettled_limiter_between_chunks (array : List ι) (limit : JSNum)
    (callback : ι → Settlement) (h : chunkSizeInvalid limit = false) :
    ∃ s, allSettled array limit true false callback = Except.ok s ∧
      s.trace = ((chunkLoop limit [] array).map (fun c =>
        c.map ExecEvent.taskStart ++ c.map ExecEvent.taskSettle ++
          [ExecEvent.limiterCall c.length])).flatten ∧
      s.trace.countP isLimiterEvent = (chunkLoop limit [] array).length := by
  have hchunk : chunk array limit = Except.ok (chunkLoop limit [] array) := by
    simp [chunk, h]
  obtain ⟨-, -, -, -, g5⟩ :=
    allSettledGo_spec true callback (chunkLoop limit [] array) (emptyAgg (ι := ι))
  refine ⟨allSettledGo true callback (chunkLoop limit [] array) emptyAgg, ?_, ?_, ?_⟩
  · simp [allSettled, hchunk]
  · rw [g5]
    have hce : chunkEvents (ι := ι) true = fun c : List ι =>
        c.map ExecEvent.taskStart ++ c.map ExecEvent.taskSettle ++
          [ExecEvent.limiterCall c.length] := by
      funext c
      simp [chunkEvents]
    rw [hce]
    simp [emptyAgg]
  · rw [g5]
    simpa [emptyAgg] using countP_chunkEvents (chunkLoop limit [] array)

/-- Witness for C7: three items in chunks of two give the block-structured
trace with a limiter call of size 2, then of size 1. -/
theorem allSettled_limiter_between_chunks_witness :
    ∃ s, allSettled [0, 1, 2] (JSNum.fin 2) true false demoTask = Except.ok s ∧
      s.trace = [ExecEvent.taskStart 0, ExecEvent.taskStart 1, ExecEvent.taskSettle 0,
        ExecEvent.taskSettle 1, ExecEvent.limiterCall 2, ExecEvent.taskStart 2,
        ExecEvent.taskSettle 2, ExecEvent.limiterCall 1] ∧
      s.trace.countP isLimiterEvent = 2 := by
  obtain ⟨s, hok, htr, hcount⟩ := allSettled_limiter_between_chunks [0, 1, 2]
    (JSNum.fin 2) demoTask (by simp [chunkSizeInvalid])
  have hchunks : chunkLoop (JSNum.fin 2) ([] : List ℕ) [0, 1, 2] = [[0, 1], [2]] := by
    decide
  refine ⟨s, hok, ?_, ?_⟩
  · rw [htr, hchunks]
    rfl
  · rw [hcount, hchunks]
    rfl

/-- `Promise.all` over a chunk's settlements: all fulfilled values in
order, or the first rejection reason (outcomes are determined in input
order in this sequential model). -/
def promiseAll : List Settlement → Except JSVal (List JSVal)
  | [] => Except.ok []
  | Settlement.fulfilled v :: rest =>
    match promiseAll rest with
    | Except.ok vs => Except.ok (v :: vs)
    | Except.error e => Except.error e
  | Settlement.rejected e :: _ => Except.error e

/-- The chunk loop of `throwFirstReject`: per chunk, launch all tasks
(recorded in the first component as the list of started items), await
`Promise.all`, and stop at the first rejected chunk; `values` accumulates
the fulfilled values of completed chunks. -/
def tfrGo (callback : ι → Settlement) :
    List (List ι) → List JSVal → List ι → List ι × Except JSVal (List JSVal)
  | [], values, started => (started, Except.ok values)
  | c :: rest, values, started =>
    match promiseAll (c.map callback) with
    | Except.error e => (started ++ c, Except.error e)
    | Except.ok vs => tfrGo callback rest (values ++ vs) (started ++ c)

/-- The `{values, returned}` output of `throwFirstReject`. -/
structure TFRResult where
  values : List JSVal
  returned : List JSVal

/-- `throwFirstReject({array, limit, flatten}, callback)` from
`promise.js`: same chunking as `allSettled`, each chunk executed with
`Promise.all` semantics; on success `returned` is the very same array as
`values` (flattened when requested).  The first component of the payload
records which items were ever started. -/
def throwFirstReject (array : List ι) (limit : JSNum) (flatten : Bool)
    (callback : ι → Settlement) :
    Except String (List ι × Except JSVal TFRResult) :=
  match chunk array limit with
  | Except.error e => Except.error e
  | Except.ok chunked =>
    let r := tfrGo callback chunked [] []
    Except.ok (r.1, r.2.map (fun values =>
      let values2 := if flatten then jsFlat values else values
      { values := values2, returned := values2 }))

/-- `Promise.all` on settlements with no rejection returns all fulfilled
values in order. -/
theorem promiseAll_ok (rs : List Settlement)
    (h : rs.findSome? rejectedReason = none) :
    promiseAll rs = Except.ok (rs.filterMap fulfilledValue) := by
  induction rs with
  | nil => rfl
  | cons r rest ih =>
    cases r with
    | fulfilled v =>
      have h' : rest.findSome? rejectedReason = none := by
        simpa [List.findSome?, rejectedReason] using h
      simp [promiseAll, ih h', List.filterMap_cons, fulfilledValue]
    | rejected e =>
      simp [List.findSome?, rejectedReason] at h

/-- `Promise.all` on settlements rejects with the first rejection
reason. -/
theorem promiseAll_err (rs : List Settlement) (e : JSVal)
    (h : rs.findSome? rejectedReason = some e) :
    promiseAll rs = Except.error e := by
  induction rs with
  | nil => simp [List.findSome?] at h
  | cons r rest ih =>
    cases r with
    | fulfilled v =>
      have h' : rest.findSome? rejectedReason = some e := by
        simpa [List.findSome?, rejectedReason] using h
      simp [promiseAll, ih h']
    | rejected r' =>
      have he : r' = e := by
        simpa [List.findSome?, rejectedReason] using h
      simp [promiseAll, he]

/-- When no task of any chunk rejects, the fail-fast loop starts every
item and returns all fulfilled values in input order. -/
theorem tfrGo_ok (callback : ι → Settlement) :
    ∀ (chunked : List (List ι)),
      (∀ i ∈ chunked.flatten, rejectedReason (callback i) = none) →
      ∀ (values : List JSVal) (started : List ι),
        tfrGo callback chunked values started =
          (started ++ chunked.flatten,
           Except.ok (values ++ chunked.flatten.filterMap
             (fun i => fulfilledValue (callback i)))) := by
  intro chunked
  induction chunked with
  | nil => intro _ values started; simp [tfrGo]
  | cons c rest ih =>
    intro h values started
    have hc : (c.map callback).findSome? rejectedReason = none := by
      rw [List.findSome?_eq_none_iff]
      intro a ha
      obtain ⟨i, hi, rfl⟩ := List.mem_map.mp ha
      exact h i (by simp [hi])
    have hPA := promiseAll_ok (c.map callback) hc
    simp only [tfrGo, hPA]
    rw [ih (fun i hi => h i (by simp [hi])) _ _]
    simp [List.append_assoc, List.filterMap_append, List.filterMap_map, Function.comp_def]

/-- When every chunk before `c` is rejection-free and `c` contains a
rejection, the fail-fast loop starts exactly the items of the chunks up
to and including `c` and stops with the first rejection reason of `c`. -/
theorem tfrGo_fail (callback : ι → Settlement) (c : List ι) (e : JSVal)
    (hcfail : (c.map callback).findSome? rejectedReason = some e) :
    ∀ (pre : List (List ι)),
      (∀ i ∈ pre.flatten, rejectedReason (callback i) = none) →
      ∀ (post : List (List ι)) (values : List JSVal) (started : List ι),
        tfrGo callback (pre ++ c :: post) values started =
          (started ++ pre.flatten ++ c, Except.error e) := by
  intro pre
  induction pre with
  | nil =>
    intro _ post values started
    have hPA := promiseAll_err (c.map callback) e hcfail
    simp only [List.nil_append, tfrGo, hPA]
    simp
  | cons p pre ih =>
    intro h post values started
    have hp : (p.map callback).findSome? rejectedReason = none := by
      rw [List.findSome?_eq_none_iff]
      intro a ha
      obtain ⟨i, hi, rfl⟩ := List.mem_map.mp ha
      exact h i (by simp [hi])
    have hPA := promiseAll_ok (p.map callback) hp
    simp only [List.cons_append, tfrGo, hPA]
    simp only [List.append_eq]
    rw [ih (fun i hi => h i (by simp [hi])) post _ _]
    simp [List.append_assoc]

/-- C8: with a valid chunk limit, if every task fulfills then
`throwFirstReject` starts every item and resolves with `values` and
`returned` being the same array of fulfilled values in input order; if a
chunk contains a rejection (all earlier chunks being rejection-free,
i.e. it is the first such chunk), the call rejects with that chunk's
first rejection reason and starts no task of any later chunk — the
started items are exactly those of the chunks up to and including the
failing one. -/
theorem throwFirstReject_spec (array : List ι) (limit : JSNum)
    (callback : ι → Settlement) (h : chunkSizeInvalid limit = false) :
    ((∀ i ∈ array, rejectedReason (callback i) = none) →
      ∃ out, throwFirstReject array limit false callback =
          Except.ok (array, Except.ok out) ∧
        out.values = array.filterMap (fun i => fulfilledValue (callback i)) ∧
        out.returned = out.values) ∧
    (∀ (pre : List (List ι)) (c : List ι) (post : List (List ι)) (e : JSVal),
      chunkLoop limit [] array = pre ++ c :: post →
      (∀ i ∈ pre.flatten, rejectedReason (callback i) = none) →
      (c.map callback).findSome? rejectedReason = some e →
      throwFirstReject array limit false callback =
        Except.ok (pre.flatten ++ c, Except.error e)) := by
  have hchunk : chunk array limit = Except.ok (chunkLoop limit [] array) := by
    simp [chunk, h]
  have hflat : (chunkLoop limit [] array).flatten = array := by
    simpa using chunkLoop_flatten limit array []
  constructor
  · intro hall
    have hgo := tfrGo_ok callback (chunkLoop limit [] array)
      (fun i hi => hall i (by rwa [hflat] at hi)) [] []
    rw [hflat] at hgo
    refine ⟨{ values := array.filterMap (fun i => fulfilledValue (callback i)),
              returned := array.filterMap (fun i => fulfilledValue (callback i)) },
      ?_, rfl, rfl⟩
    simp only [throwFirstReject, hchunk, hgo]
    simp only [List.nil_append, Bool.false_eq_true, if_false]
    rfl
  · intro pre c post e hsplit hpre hce
    have hgo := tfrGo_fail callback c e hce pre hpre post [] []
    simp only [throwFirstReject, hchunk, hsplit, hgo]
    simp only [List.nil_append]
    rfl

/-- A fixed demonstration task that always fulfills, for the fail-fast
witness. -/
def demoGood : ℕ → Settlement := fun _ => Settlement.fulfilled (JSVal.number 7)

/-- Witness for C8: an all-fulfilling task resolves with identical
`values`/`returned`; `demoTask` (which rejects item 1 in the first chunk
`[0, 1]`) rejects with `"fail"` and never starts item 2's chunk. -/
theorem throwFirstReject_spec_witness :
    (∃ out, throwFirstReject [0, 1, 2] (JSNum.fin 2) false demoGood =
        Except.ok ([0, 1, 2], Except.ok out) ∧
      out.values = [JSVal.number 7, JSVal.number 7, JSVal.number 7] ∧
      out.returned = out.values) ∧
    throwFirstReject [0, 1, 2] (JSNum.fin 2) false demoTask =
      Except.ok ([0, 1], Except.error (JSVal.string "fail")) := by
  constructor
  · obtain ⟨out, hok, hv, hr⟩ :=
      (throwFirstReject_spec [0, 1, 2] (JSNum.fin 2) demoGood
        (by simp [chunkSizeInvalid])).1 (fun i _ => rfl)
    refine ⟨out, hok, ?_, hr⟩
    rw [hv]
    rfl
  · have h2 := (throwFirstReject_spec [0, 1, 2] (JSNum.fin 2) demoTask
      (by simp [chunkSizeInvalid])).2 [] [0, 1] [[2]] (JSVal.string "fail")
      (by decide) (by intro i hi; simp at hi) rfl
    simpa using h2
